/-
Verification of the layer ingestion-and-registry subsystem of `app.py`
(a Flask web-GIS server).

The Python source is shallowly embedded:

* the durable order file (`layer_order.json`) is modelled by `OrderFile`:
  it is missing, unreadable (an exception while opening/parsing), readable
  but not a JSON list, or a well-formed list of names;
* the in-memory registry `layers` (a Python `dict`, which preserves
  insertion order) is modelled as an association list `List (String × Layer)`;
  `list(layers.keys())` is `reg.map Prod.fst`;
* the external library calls (`geopandas` parsing, `total_bounds`) are
  modelled at their boundary: each `Layer` carries the `Option`al bounds
  tuple `(minx, miny, maxx, maxy)` that `gpd.GeoDataFrame.from_features`
  + `total_bounds` would yield for its geojson (`none` when that call
  raises), and each file in an upload batch carries the Bool outcome of
  `load_zip_into_layers`;
* Python loops that append into a list become tail-recursive functions on
  an accumulator, one constructor per loop iteration.
-/
import Mathlib

namespace Pmahal

/-! ## Order Store: durable file, load and save (app.py lines 18-65) -/

/-- State of the durable order file `uploads/layer_order.json` as `load_saved_order`
observes it: absent, raising on read, JSON but not a list, or a JSON list of names. -/
inductive OrderFile where
  | missing
  | unreadable
  | malformed
  | wellFormed (names : List String)
deriving DecidableEq, Repr

/-- `DEFAULT_LAYER_ORDER = ["P_Location", "Taluka"]` (app.py line 23). -/
def DEFAULT_LAYER_ORDER : List String := ["P_Location", "Taluka"]

/-- `load_saved_order` (app.py lines 46-55): return the file's contents when the
file exists, is readable and parses to a JSON list; in every other case
(missing file, exception, non-list JSON) fall back to `DEFAULT_LAYER_ORDER`. -/
def load_saved_order : OrderFile → List String
  | .wellFormed names => names
  | _ => DEFAULT_LAYER_ORDER

/-- `save_order` (app.py lines 58-65) on the success path: the durable file now
holds exactly the given list. -/
def save_order (order_list : List String) : OrderFile :=
  .wellFormed order_list

/-! ## The append-missing loop shared by upload, startup and set_order

`for n in present: if n not in cleaned: cleaned.append(n)` appears verbatim in
`upload_shapefiles` (lines 140-142), `set_order` (lines 239-241) and the
startup block (lines 316-318). -/

/-- One Python loop `for n in l: if n not in acc: acc.append(n)`. -/
def appendMissing (acc : List String) : List String → List String
  | [] => acc
  | n :: rest => appendMissing (if n ∈ acc then acc else acc ++ [n]) rest

/-! ## get_layers ordering (app.py lines 183-193) -/

/-- The first loop of `get_layers` (lines 186-189):
`for n in saved_order: if n in present and n not in ordered: ordered.append(n)`. -/
def orderLoop1 (present : List String) : List String → List String → List String
  | ordered, [] => ordered
  | ordered, n :: rest =>
      orderLoop1 present
        (if n ∈ present ∧ n ∉ ordered then ordered ++ [n] else ordered) rest

/-- The reconciled order computed by `get_layers` (lines 183-193): keep the
saved names that are present and not yet seen, then append the missing
present names from `sorted(present)`. -/
def reconcileOrder (saved_order present : List String) : List String :=
  appendMissing (orderLoop1 present [] saved_order)
    (List.insertionSort (· ≤ ·) present)

/-! ## set_order (app.py lines 225-247) -/

/-- One entry of the JSON `order` array posted to `/set_order`: a string, or
any non-string JSON value (which `isinstance(n, str)` rejects). -/
inductive OrderEntry where
  | str (s : String)
  | nonStr
deriving DecidableEq, Repr

/-- `cleaned = [n for n in new_order if isinstance(n, str) and n in present]`
(app.py line 237). -/
def cleanedOrder (new_order : List OrderEntry) (present : List String) : List String :=
  new_order.filterMap fun e =>
    match e with
    | .str n => if n ∈ present then some n else none
    | .nonStr => none

/-- The list persisted and returned by `set_order` (app.py lines 236-245):
the cleaned request followed by the present names it misses, in registry
iteration order. -/
def set_order (new_order : List OrderEntry) (present : List String) : List String :=
  appendMissing (cleanedOrder new_order present) present

/-! ## upload_shapefiles (app.py lines 114-145) -/

/-- `os.path.splitext(s)[0]`: the string up to the last dot, where a dot inside
the leading run of dots never starts an extension (`splitext(".zip") = (".zip", "")`). -/
def splitextStem (s : String) : String :=
  let cs := s.data
  let lead := (cs.takeWhile (fun c => c = '.')).length
  let dotIdxs := (cs.enum.filter (fun p => decide (lead ≤ p.1) && decide (p.2 = '.'))).map Prod.fst
  match dotIdxs.getLast? with
  | some i => ⟨cs.take i⟩
  | none => s

/-- One file of an upload batch, at the boundary of the embedded code: its
`filename`, and the Bool that `load_zip_into_layers` returns on it (whether
the archive extracts, contains a `.shp` and parses; app.py lines 253-287). -/
structure UploadFile where
  filename : String
  ingestOk : Bool
deriving DecidableEq, Repr

/-- A file succeeds ingestion iff it passes the `.zip` filename check
(line 127) and `load_zip_into_layers` succeeds on it (line 134). -/
def uploadOutcomeOk (f : UploadFile) : Bool :=
  f.filename.toLower.endsWith ".zip" && f.ingestOk

/-- The per-file loop of `upload_shapefiles` (app.py lines 126-137),
accumulating the `uploaded` and `failed` response lists. -/
def uploadLoop (uploaded failed : List String) : List UploadFile → List String × List String
  | [] => (uploaded, failed)
  | f :: rest =>
      if ¬ f.filename.toLower.endsWith ".zip" then
        uploadLoop uploaded (failed ++ [f.filename]) rest
      else if f.ingestOk then
        uploadLoop (uploaded ++ [splitextStem f.filename]) failed rest
      else
        uploadLoop uploaded (failed ++ [f.filename]) rest

/-- The `(uploaded, failed)` pair of the `/upload` response (app.py lines 122-145). -/
def uploadBatch (files : List UploadFile) : List String × List String :=
  uploadLoop [] [] files

/-- The order persisted at the end of an upload request (app.py lines 139-143):
the loaded order, with registry names missing from it appended in registry
iteration order. -/
def uploadPersistedOrder (file : OrderFile) (registryNames : List String) : List String :=
  appendMissing (load_saved_order file) registryNames

/-! ## Layers, registry and delete_layer (app.py lines 40, 151-173) -/

/-- One value of the `layers` dict (app.py lines 274-279), with the geojson
seen through the external-library boundary: `boundsResult` is the
`(minx, miny, maxx, maxy)` that `gpd.GeoDataFrame.from_features` +
`total_bounds` yield for the stored geojson, `none` when that call raises
(app.py lines 201-205). -/
structure Layer where
  boundsResult : Option (ℚ × ℚ × ℚ × ℚ)
  color : String
  opacity : ℚ
  zip_path : String
deriving DecidableEq, Repr

/-- The mutable process state touched by `delete_layer`: the `layers` dict
(as an insertion-ordered association list) and the durable order file. -/
structure AppState where
  layers : List (String × Layer)
  orderFile : OrderFile
deriving DecidableEq, Repr

/-- Outcome reported by `/delete/<layer_name>`. -/
inductive DeleteResult where
  | deleted
  | notFound
deriving DecidableEq, Repr

/-- `delete_layer` (app.py lines 151-173): when the name is registered, pop it
from the dict, drop it from the loaded order and re-save when it occurred
there; otherwise report `Layer not found` and touch nothing. -/
def delete_layer (layer_name : String) (st : AppState) : AppState × DeleteResult :=
  if layer_name ∈ st.layers.map Prod.fst then
    let layers' := st.layers.eraseP (fun p => p.1 == layer_name)
    let order := load_saved_order st.orderFile
    if layer_name ∈ order then
      ({ layers := layers',
         orderFile := save_order (order.filter (fun n => n ≠ layer_name)) }, .deleted)
    else
      ({ layers := layers', orderFile := st.orderFile }, .deleted)
  else
    (st, .notFound)

/-! ## get_layers response (app.py lines 195-219) -/

/-- `ordered_layers = {name: layers[name] for name in ordered}` (app.py
line 195): looked up in order; `none` models the `KeyError` raised when a
name is not a key of the dict. -/
def buildOrderedLayers (reg : List (String × Layer)) : List String → Option (List (String × Layer))
  | [] => some []
  | n :: rest =>
      match List.lookup n reg, buildOrderedLayers reg rest with
      | some l, some acc => some ((n, l) :: acc)
      | _, _ => none

/-- The `final_bounds` value of the `/layers` response (app.py lines 197-212):
`None` when the ordered dict is empty or no layer yields bounds, else
`[[miny, minx], [maxy, maxx]]` over the componentwise min/max of the
collected per-layer bounds. -/
def computeBounds (lyrs : List Layer) : Option (List (List ℚ)) :=
  match lyrs with
  | [] => none
  | _ :: _ =>
      match lyrs.filterMap (fun l => l.boundsResult) with
      | [] => none
      | b :: rest =>
          let minx := (rest.map (fun t => t.1)).foldl min b.1
          let miny := (rest.map (fun t => t.2.1)).foldl min b.2.1
          let maxx := (rest.map (fun t => t.2.2.1)).foldl max b.2.2.1
          let maxy := (rest.map (fun t => t.2.2.2)).foldl max b.2.2.2
          some [[miny, minx], [maxy, maxx]]

/-! ## Spec-side definitions

These follow the spec's words, to be compared with the embedded code. -/

/-- Keep the first occurrence of each element, dropping later duplicates;
`seen` holds the elements already kept. Helper for the spec-side reconcile
and for characterising the accumulator loops. -/
def dedupKeepFirstAux (seen : List String) : List String → List String
  | [] => []
  | n :: rest =>
      if n ∈ seen then dedupKeepFirstAux seen rest
      else n :: dedupKeepFirstAux (n :: seen) rest

/-- Drop later duplicates, keeping first occurrences. -/
def dedupKeepFirst (l : List String) : List String :=
  dedupKeepFirstAux [] l

/-- Spec-side `reconcile(loaded_order, present_names)`: names from
`loaded_order` that are in `present_names`, in original relative order with
duplicates dropped, followed by the remaining present names in lexicographic
order. -/
def reconcile_spec (loaded_order present : List String) : List String :=
  dedupKeepFirst (loaded_order.filter (fun n => n ∈ present)) ++
    (List.insertionSort (· ≤ ·) present).filter
      (fun n => n ∉ dedupKeepFirst (loaded_order.filter (fun m => m ∈ present)))

/-- Spec-side union of two bounding rectangles `(minx, miny, maxx, maxy)`. -/
def rectUnion (r s : ℚ × ℚ × ℚ × ℚ) : ℚ × ℚ × ℚ × ℚ :=
  (min r.1 s.1, min r.2.1 s.2.1, max r.2.2.1 s.2.2.1, max r.2.2.2 s.2.2.2)

/-- Spec-side union bounding rectangle of a list of rectangles: absent when
the list is empty. -/
def unionBoundsRect : List (ℚ × ℚ × ℚ × ℚ) → Option (ℚ × ℚ × ℚ × ℚ)
  | [] => none
  | b :: rest => some (rest.foldl rectUnion b)

/-- Spec-side Bounds Aggregator: the union bounding rectangle over the
bounds of the layers that yield bounds, formatted as
`[[min_lat, min_lon], [max_lat, max_lon]]`; null when no layer yields bounds. -/
def boundsAggregator_spec (lyrs : List Layer) : Option (List (List ℚ)) :=
  match unionBoundsRect (lyrs.filterMap (fun l => l.boundsResult)) with
  | none => none
  | some (mnx, mny, mxx, mxy) => some [[mny, mnx], [mxy, mxx]]

/-! ## Claim C5 -/

/-- C5: `load_saved_order` returns the durable order whenever the durable copy
exists and is a well-formed list; when the durable copy is missing, malformed
or unreadable it returns the default seed order, so with no durable file the
loaded order is exactly `["P_Location", "Taluka"]`. -/
theorem load_saved_order_spec :
    (∀ names : List String, load_saved_order (.wellFormed names) = names) ∧
    load_saved_order .missing = DEFAULT_LAYER_ORDER ∧
    load_saved_order .unreadable = DEFAULT_LAYER_ORDER ∧
    load_saved_order .malformed = DEFAULT_LAYER_ORDER ∧
    load_saved_order .missing = ["P_Location", "Taluka"] :=
  ⟨fun _ => rfl, rfl, rfl, rfl, rfl⟩

/-! ## Infrastructure: characterising the accumulator loops -/

theorem mem_dedupKeepFirstAux {x : String} (l : List String) :
    ∀ seen, x ∈ dedupKeepFirstAux seen l ↔ x ∈ l ∧ x ∉ seen := by
  induction l with
  | nil => intro seen; simp [dedupKeepFirstAux]
  | cons n rest ih =>
    intro seen
    by_cases hn : n ∈ seen
    · rw [dedupKeepFirstAux, if_pos hn, ih seen]
      constructor
      · rintro ⟨hx, hxs⟩
        exact ⟨List.mem_cons_of_mem _ hx, hxs⟩
      · rintro ⟨hx, hxs⟩
        rcases List.mem_cons.mp hx with rfl | hx
        · exact absurd hn hxs
        · exact ⟨hx, hxs⟩
    · rw [dedupKeepFirstAux, if_neg hn, List.mem_cons, List.mem_cons, ih (n :: seen),
        List.mem_cons]
      constructor
      · rintro (rfl | ⟨hx, hxs⟩)
        · exact ⟨Or.inl rfl, hn⟩
        · exact ⟨Or.inr hx, fun h => hxs (Or.inr h)⟩
      · rintro ⟨rfl | hx, hxs⟩
        · exact Or.inl rfl
        · by_cases hxn : x = n
          · exact Or.inl hxn
          · exact Or.inr ⟨hx, fun h => h.elim hxn hxs⟩

theorem dedupKeepFirstAux_congr (l : List String) :
    ∀ s t, (∀ x, x ∈ s ↔ x ∈ t) → dedupKeepFirstAux s l = dedupKeepFirstAux t l := by
  induction l with
  | nil => intro s t _; rfl
  | cons n rest ih =>
    intro s t hst
    by_cases hn : n ∈ s
    · rw [dedupKeepFirstAux, if_pos hn, dedupKeepFirstAux, if_pos ((hst n).mp hn), ih s t hst]
    · rw [dedupKeepFirstAux, if_neg hn, dedupKeepFirstAux, if_neg (fun h => hn ((hst n).mpr h))]
      exact congrArg (n :: ·) (ih (n :: s) (n :: t) (fun x => by
        rw [List.mem_cons, List.mem_cons, hst x]))

theorem nodup_dedupKeepFirstAux (l : List String) :
    ∀ seen, (dedupKeepFirstAux seen l).Nodup := by
  induction l with
  | nil => intro seen; simp [dedupKeepFirstAux]
  | cons n rest ih =>
    intro seen
    by_cases hn : n ∈ seen
    · rw [dedupKeepFirstAux, if_pos hn]; exact ih seen
    · rw [dedupKeepFirstAux, if_neg hn]
      refine List.Nodup.cons (fun hmem => ?_) (ih (n :: seen))
      exact ((mem_dedupKeepFirstAux rest (n :: seen)).mp hmem).2 (List.mem_cons_self n seen)

theorem dedupKeepFirstAux_eq_filter {l : List String} (hl : l.Nodup) :
    ∀ seen, dedupKeepFirstAux seen l = l.filter (fun x => x ∉ seen) := by
  induction l with
  | nil => intro seen; rfl
  | cons n rest ih =>
    intro seen
    rcases List.nodup_cons.mp hl with ⟨hn_rest, hrest⟩
    by_cases hn : n ∈ seen
    · rw [dedupKeepFirstAux, if_pos hn, ih hrest seen, List.filter_cons,
        if_neg (by simp [hn])]
    · rw [dedupKeepFirstAux, if_neg hn, ih hrest (n :: seen), List.filter_cons,
        if_pos (by simpa using hn)]
      refine congrArg (n :: ·) (List.filter_congr (fun x hx => ?_))
      have hxn : x ≠ n := fun h => hn_rest (h ▸ hx)
      simp [List.mem_cons, hxn]

theorem dedupKeepFirstAux_eq_nil {l seen : List String} (h : ∀ x ∈ l, x ∈ seen) :
    dedupKeepFirstAux seen l = [] := by
  rw [List.eq_nil_iff_forall_not_mem]
  intro x hx
  rcases (mem_dedupKeepFirstAux l seen).mp hx with ⟨hxl, hxs⟩
  exact hxs (h x hxl)

theorem appendMissing_eq (l : List String) :
    ∀ acc, appendMissing acc l = acc ++ dedupKeepFirstAux acc l := by
  induction l with
  | nil => intro acc; simp [appendMissing, dedupKeepFirstAux]
  | cons n rest ih =>
    intro acc
    by_cases hn : n ∈ acc
    · rw [appendMissing, if_pos hn, dedupKeepFirstAux, if_pos hn, ih acc]
    · rw [appendMissing, if_neg hn, dedupKeepFirstAux, if_neg hn, ih (acc ++ [n]),
        dedupKeepFirstAux_congr rest (acc ++ [n]) (n :: acc) (fun x => by
          rw [List.mem_append, List.mem_singleton, List.mem_cons, or_comm]),
        List.append_assoc]
      rfl

theorem orderLoop1_eq (present : List String) (saved : List String) :
    ∀ acc, orderLoop1 present acc saved =
      acc ++ dedupKeepFirstAux acc (saved.filter (fun n => n ∈ present)) := by
  induction saved with
  | nil => intro acc; simp [orderLoop1, dedupKeepFirstAux]
  | cons n rest ih =>
    intro acc
    by_cases hp : n ∈ present
    · have hf : (n :: rest).filter (fun m => m ∈ present) =
          n :: rest.filter (fun m => m ∈ present) := by
        rw [List.filter_cons, if_pos (by simpa using hp)]
      by_cases hn : n ∈ acc
      · rw [orderLoop1, if_neg (fun h => h.2 hn), ih acc, hf, dedupKeepFirstAux, if_pos hn]
      · rw [orderLoop1, if_pos ⟨hp, hn⟩, ih (acc ++ [n]), hf, dedupKeepFirstAux, if_neg hn,
          dedupKeepFirstAux_congr _ (acc ++ [n]) (n :: acc) (fun x => by
            rw [List.mem_append, List.mem_singleton, List.mem_cons, or_comm]),
          List.append_assoc]
        rfl
    · have hf : (n :: rest).filter (fun m => m ∈ present) =
          rest.filter (fun m => m ∈ present) := by
        rw [List.filter_cons, if_neg (by simp [hp])]
      rw [orderLoop1, if_neg (fun h => hp h.1), ih acc, hf]

/-! ## The reconciled order of get_layers: closed form and properties -/

theorem reconcileOrder_eq (saved present : List String) :
    reconcileOrder saved present =
      dedupKeepFirst (saved.filter (fun n => n ∈ present)) ++
        dedupKeepFirstAux (dedupKeepFirst (saved.filter (fun n => n ∈ present)))
          (List.insertionSort (· ≤ ·) present) := by
  rw [reconcileOrder, orderLoop1_eq, appendMissing_eq, List.nil_append]
  rfl

theorem mem_reconcileOrder {x : String} {saved present : List String} :
    x ∈ reconcileOrder saved present ↔ x ∈ present := by
  rw [reconcileOrder_eq, List.mem_append, dedupKeepFirst, mem_dedupKeepFirstAux,
    mem_dedupKeepFirstAux]
  constructor
  · rintro (⟨hx, -⟩ | ⟨hx, -⟩)
    · simpa using (List.mem_filter.mp hx).2
    · exact (List.mem_insertionSort _).mp hx
  · intro hx
    by_cases hk : x ∈ dedupKeepFirstAux [] (saved.filter (fun n => n ∈ present))
    · exact Or.inl ((mem_dedupKeepFirstAux _ _).mp hk)
    · exact Or.inr ⟨(List.mem_insertionSort _).mpr hx, hk⟩

theorem nodup_reconcileOrder (saved present : List String) :
    (reconcileOrder saved present).Nodup := by
  rw [reconcileOrder_eq]
  refine List.Nodup.append (nodup_dedupKeepFirstAux _ _) (nodup_dedupKeepFirstAux _ _) ?_
  intro x hx1 hx2
  exact ((mem_dedupKeepFirstAux _ _).mp hx2).2 hx1

/-! ## Claim C3 -/

/-- C3: for every loaded order and every (duplicate-free) collection of
registered names, the order computed by `get_layers` keeps exactly the
loaded-order names that are registered, in their original relative order with
duplicates dropped, followed by the remaining registered names in
lexicographic order. -/
theorem get_layers_order_spec (loaded present : List String) (hp : present.Nodup) :
    reconcileOrder loaded present = reconcile_spec loaded present := by
  have hsorted : (List.insertionSort (· ≤ ·) present).Nodup :=
    ((List.perm_insertionSort _ present).nodup_iff).mpr hp
  rw [reconcileOrder_eq, reconcile_spec, dedupKeepFirstAux_eq_filter hsorted]

theorem get_layers_order_spec_witness :
    (["C", "A", "B"] : List String).Nodup ∧
      reconcileOrder ["B", "X", "A", "B"] ["C", "A", "B"] =
        reconcile_spec ["B", "X", "A", "B"] ["C", "A", "B"] :=
  ⟨by decide, get_layers_order_spec ["B", "X", "A", "B"] ["C", "A", "B"] (by decide)⟩

/-! ## Claim C4 -/

/-- C4: the reconcile policy of `get_layers` is idempotent: reapplying it to
its own output with the same present names returns that output unchanged. -/
theorem reconcileOrder_idempotent (order present : List String) :
    reconcileOrder (reconcileOrder order present) present =
      reconcileOrder order present := by
  have hmem : ∀ x ∈ reconcileOrder order present, x ∈ present :=
    fun x hx => mem_reconcileOrder.mp hx
  have hnodup : (reconcileOrder order present).Nodup := nodup_reconcileOrder order present
  have hfilter : (reconcileOrder order present).filter (fun n => n ∈ present) =
      reconcileOrder order present :=
    List.filter_eq_self.mpr (fun a ha => by simpa using hmem a ha)
  have h1 : dedupKeepFirstAux [] (reconcileOrder order present) =
      reconcileOrder order present := by
    rw [dedupKeepFirstAux_eq_filter hnodup]
    exact List.filter_eq_self.mpr (fun a _ => by simp)
  conv_lhs => rw [reconcileOrder, orderLoop1_eq, appendMissing_eq, List.nil_append,
    hfilter, h1]
  rw [dedupKeepFirstAux_eq_nil (fun x hx =>
    mem_reconcileOrder.mpr ((List.mem_insertionSort _).mp hx)), List.append_nil]

/-! ## Claim C1 -/

theorem mem_of_mem_cleanedOrder {x : String} {new_order : List OrderEntry}
    {present : List String} (hx : x ∈ cleanedOrder new_order present) : x ∈ present := by
  rcases List.mem_filterMap.mp hx with ⟨e, -, he⟩
  cases e with
  | nonStr => simp at he
  | str n =>
    simp only at he
    split at he
    next h => exact Option.some.inj he ▸ h
    next => simp at he

/-- C1 as stated is false: when the requested order repeats a registered name,
`set_order` keeps both copies, so the result does not contain every registered
name exactly once. -/
theorem set_order_dup_counterexample :
    set_order [.str "A", .str "A"] ["A"] = ["A", "A"] ∧
      ¬ (set_order [.str "A", .str "A"] ["A"]).count "A" = 1 := by
  constructor <;> decide

/-- C1 (amended): `set_order` returns the requested list filtered to names
that are strings and present in the registry — duplicates among them
preserved — followed by the present names missing from that filtered result
in registry iteration order; the result never contains a name absent from
the registry, contains every registered name at least once, and contains
every registered name exactly once whenever the filtered request is
duplicate-free. -/
theorem set_order_spec (new_order : List OrderEntry) (present : List String)
    (hp : present.Nodup) :
    set_order new_order present =
      cleanedOrder new_order present ++
        present.filter (fun n => n ∉ cleanedOrder new_order present) ∧
    (∀ x, x ∈ set_order new_order present ↔ x ∈ present) ∧
    ((cleanedOrder new_order present).Nodup →
      ∀ x ∈ present, (set_order new_order present).count x = 1) := by
  have hstruct : set_order new_order present =
      cleanedOrder new_order present ++
        present.filter (fun n => n ∉ cleanedOrder new_order present) := by
    rw [set_order, appendMissing_eq, dedupKeepFirstAux_eq_filter hp]
  have hmem : ∀ x, x ∈ set_order new_order present ↔ x ∈ present := by
    intro x
    rw [hstruct, List.mem_append]
    constructor
    · rintro (hx | hx)
      · exact mem_of_mem_cleanedOrder hx
      · exact (List.mem_filter.mp hx).1
    · intro hx
      by_cases hc : x ∈ cleanedOrder new_order present
      · exact Or.inl hc
      · exact Or.inr (List.mem_filter.mpr ⟨hx, by simpa using hc⟩)
  refine ⟨hstruct, hmem, fun hc x hx => ?_⟩
  apply List.count_eq_one_of_mem
  · rw [hstruct]
    refine List.Nodup.append hc (hp.filter _) ?_
    intro y hy1 hy2
    have := (List.mem_filter.mp hy2).2
    simp only [decide_not, Bool.not_eq_true', decide_eq_false_iff_not] at this
    exact this hy1
  · exact (hmem x).mpr hx

theorem set_order_spec_witness :
    (["B", "A"] : List String).Nodup ∧
      (set_order [.str "A", .nonStr] ["B", "A"] =
          cleanedOrder [.str "A", .nonStr] ["B", "A"] ++
            (["B", "A"] : List String).filter
              (fun n => n ∉ cleanedOrder [.str "A", .nonStr] ["B", "A"]) ∧
        (∀ x, x ∈ set_order [.str "A", .nonStr] ["B", "A"] ↔
          x ∈ (["B", "A"] : List String)) ∧
        ((cleanedOrder [.str "A", .nonStr] ["B", "A"]).Nodup →
          ∀ x ∈ (["B", "A"] : List String),
            (set_order [.str "A", .nonStr] ["B", "A"]).count x = 1)) :=
  ⟨by decide, set_order_spec [.str "A", .nonStr] ["B", "A"] (by decide)⟩

/-! ## Claim C2 -/

/-- C2 as stated is false: with loaded order `["X"]` (a stale name) and
registry iteration order `["B", "A"]`, the upload path persists
`["X", "B", "A"]` while the listing path's reconcile policy yields
`["A", "B"]` — the upload path neither filters stale names nor appends
missing names lexicographically. -/
theorem upload_order_policy_counterexample :
    uploadPersistedOrder (.wellFormed ["X"]) ["B", "A"] ≠
      reconcileOrder (load_saved_order (.wellFormed ["X"])) ["B", "A"] := by
  have h1 : uploadPersistedOrder (.wellFormed ["X"]) ["B", "A"] = ["X", "B", "A"] := by
    simp [uploadPersistedOrder, load_saved_order, appendMissing]
  have h2 : reconcileOrder (load_saved_order (.wellFormed ["X"])) ["B", "A"] = ["A", "B"] := by
    simp [reconcileOrder, load_saved_order, orderLoop1, appendMissing,
      List.insertionSort, List.orderedInsert]
  rw [h1, h2]
  decide

/-- C2 (amended): the order persisted at the end of an upload request is the
loaded order kept verbatim — stale names included — with the registered names
missing from it appended in registry iteration order, not the listing path's
policy of filtering to registered names and appending lexicographically. -/
theorem upload_persisted_order_spec (file : OrderFile) (registryNames : List String)
    (hreg : registryNames.Nodup) :
    uploadPersistedOrder file registryNames =
      load_saved_order file ++
        registryNames.filter (fun n => n ∉ load_saved_order file) := by
  rw [uploadPersistedOrder, appendMissing_eq, dedupKeepFirstAux_eq_filter hreg]

theorem upload_persisted_order_spec_witness :
    (["B", "A"] : List String).Nodup ∧
      uploadPersistedOrder (.wellFormed ["X", "A"]) ["B", "A"] =
        load_saved_order (.wellFormed ["X", "A"]) ++
          (["B", "A"] : List String).filter
            (fun n => n ∉ load_saved_order (.wellFormed ["X", "A"])) :=
  ⟨by decide, upload_persisted_order_spec (.wellFormed ["X", "A"]) ["B", "A"] (by decide)⟩

/-! ## Claims C6 and C7: delete_layer -/

theorem not_mem_keys_eraseP {name : String} {l : List (String × Layer)}
    (h : (l.map Prod.fst).Nodup) :
    name ∉ (l.eraseP (fun p => p.1 == name)).map Prod.fst := by
  induction l with
  | nil => simp [List.eraseP]
  | cons p rest ih =>
    rw [List.map_cons, List.nodup_cons] at h
    obtain ⟨hp, hrest⟩ := h
    by_cases hname : p.1 = name
    · rw [List.eraseP_cons_of_pos (by simpa using hname)]
      exact fun hmem => hp (hname ▸ hmem)
    · rw [List.eraseP_cons_of_neg (by simpa using hname), List.map_cons, List.mem_cons]
      rintro (hcase | hcase)
      · exact hname hcase.symm
      · exact ih hrest hcase

/-- C6: deleting a registered layer reports success, removes exactly that
layer's entry from the registry, and removes its name from the order
returned by the next `load_saved_order`. -/
theorem delete_layer_spec (name : String) (st : AppState)
    (hmem : name ∈ st.layers.map Prod.fst)
    (hnodup : (st.layers.map Prod.fst).Nodup) :
    (delete_layer name st).2 = .deleted ∧
    (delete_layer name st).1.layers = st.layers.eraseP (fun p => p.1 == name) ∧
    name ∉ (delete_layer name st).1.layers.map Prod.fst ∧
    name ∉ load_saved_order (delete_layer name st).1.orderFile := by
  by_cases horder : name ∈ load_saved_order st.orderFile
  · have hdel : delete_layer name st =
        ({ layers := st.layers.eraseP (fun p => p.1 == name),
           orderFile := save_order
             ((load_saved_order st.orderFile).filter (fun n => n ≠ name)) }, .deleted) := by
      rw [delete_layer, if_pos hmem, if_pos horder]
    rw [hdel]
    refine ⟨rfl, rfl, not_mem_keys_eraseP hnodup, ?_⟩
    simp [save_order, load_saved_order]
  · have hdel : delete_layer name st =
        ({ layers := st.layers.eraseP (fun p => p.1 == name),
           orderFile := st.orderFile }, .deleted) := by
      rw [delete_layer, if_pos hmem, if_neg horder]
    rw [hdel]
    exact ⟨rfl, rfl, not_mem_keys_eraseP hnodup, horder⟩

/-- A sample layer record used to instantiate theorems on concrete states. -/
def sampleLayer : Layer :=
  { boundsResult := none, color := "#aabbcc", opacity := 7/10, zip_path := "uploads/A.zip" }

theorem delete_layer_spec_witness :
    ("A" ∈ ([("A", sampleLayer)] : List (String × Layer)).map Prod.fst) ∧
    (([("A", sampleLayer)] : List (String × Layer)).map Prod.fst).Nodup ∧
    ((delete_layer "A" ⟨[("A", sampleLayer)], .wellFormed ["A"]⟩).2 = .deleted ∧
      (delete_layer "A" ⟨[("A", sampleLayer)], .wellFormed ["A"]⟩).1.layers =
        ([("A", sampleLayer)] : List (String × Layer)).eraseP (fun p => p.1 == "A") ∧
      "A" ∉ (delete_layer "A" ⟨[("A", sampleLayer)], .wellFormed ["A"]⟩).1.layers.map Prod.fst ∧
      "A" ∉ load_saved_order
        (delete_layer "A" ⟨[("A", sampleLayer)], .wellFormed ["A"]⟩).1.orderFile) :=
  ⟨by decide, by decide,
    delete_layer_spec "A" ⟨[("A", sampleLayer)], .wellFormed ["A"]⟩ (by decide) (by decide)⟩

/-- C7: a delete request for a name that is not registered reports
`Layer not found` and leaves the whole state — registry and durable order
file — unchanged. -/
theorem delete_layer_notFound (name : String) (st : AppState)
    (h : name ∉ st.layers.map Prod.fst) :
    delete_layer name st = (st, .notFound) := by
  rw [delete_layer, if_neg h]

theorem delete_layer_notFound_witness :
    ("B" ∉ ([("A", sampleLayer)] : List (String × Layer)).map Prod.fst) ∧
      delete_layer "B" ⟨[("A", sampleLayer)], .wellFormed ["A"]⟩ =
        (⟨[("A", sampleLayer)], .wellFormed ["A"]⟩, .notFound) :=
  ⟨by decide, delete_layer_notFound "B" ⟨[("A", sampleLayer)], .wellFormed ["A"]⟩ (by decide)⟩

/-! ## Claim C8: upload batch -/

theorem uploadLoop_eq (files : List UploadFile) :
    ∀ uploaded failed, uploadLoop uploaded failed files =
      (uploaded ++ (files.filter (fun f => uploadOutcomeOk f)).map
          (fun f => splitextStem f.filename),
        failed ++ (files.filter (fun f => ¬ uploadOutcomeOk f)).map
          (fun f => f.filename)) := by
  induction files with
  | nil => intro u fl; simp [uploadLoop]
  | cons g rest ih =>
    intro u fl
    by_cases hz : g.filename.toLower.endsWith ".zip"
    · by_cases hok : g.ingestOk
      · have hfo : uploadOutcomeOk g = true := by
          simp [uploadOutcomeOk, hz, hok]
        have h1 : (g :: rest).filter (fun f => uploadOutcomeOk f) =
            g :: rest.filter (fun f => uploadOutcomeOk f) := by
          rw [List.filter_cons, if_pos hfo]
        have h2 : (g :: rest).filter (fun f => ¬ uploadOutcomeOk f) =
            rest.filter (fun f => ¬ uploadOutcomeOk f) := by
          rw [List.filter_cons, if_neg (by simp [hfo])]
        rw [uploadLoop, if_neg (by simpa using hz), if_pos hok, ih, h1, h2]
        simp
      · have hfo : uploadOutcomeOk g = false := by
          simp [uploadOutcomeOk, hok]
        have h1 : (g :: rest).filter (fun f => uploadOutcomeOk f) =
            rest.filter (fun f => uploadOutcomeOk f) := by
          rw [List.filter_cons, if_neg (by simp [hfo])]
        have h2 : (g :: rest).filter (fun f => ¬ uploadOutcomeOk f) =
            g :: rest.filter (fun f => ¬ uploadOutcomeOk f) := by
          rw [List.filter_cons, if_pos (by simp [hfo])]
        rw [uploadLoop, if_neg (by simpa using hz), if_neg hok, ih, h1, h2]
        simp
    · have hfo : uploadOutcomeOk g = false := by
        simp [uploadOutcomeOk, hz]
      have h1 : (g :: rest).filter (fun f => uploadOutcomeOk f) =
          rest.filter (fun f => uploadOutcomeOk f) := by
        rw [List.filter_cons, if_neg (by simp [hfo])]
      have h2 : (g :: rest).filter (fun f => ¬ uploadOutcomeOk f) =
          g :: rest.filter (fun f => ¬ uploadOutcomeOk f) := by
        rw [List.filter_cons, if_pos (by simp [hfo])]
      rw [uploadLoop, if_pos (by simpa using hz), ih, h1, h2]
      simp

theorem length_filter_not_add {p : UploadFile → Bool} (files : List UploadFile) :
    (files.filter (fun f => p f)).length +
      (files.filter (fun f => ¬ p f)).length = files.length := by
  induction files with
  | nil => rfl
  | cons g rest ih =>
    cases hpg : p g with
    | true =>
      rw [List.filter_cons, if_pos (by simp [hpg]),
        List.filter_cons, if_neg (by simp [hpg])]
      simp only [List.length_cons]
      omega
    | false =>
      rw [List.filter_cons, if_neg (by simp [hpg]),
        List.filter_cons, if_pos (by simp [hpg])]
      simp only [List.length_cons]
      omega

/-- C8: in an upload batch of N archives of which M fail ingestion (a file
fails iff its name does not end in `.zip` or `load_zip_into_layers` fails
on it), the response's `uploaded` list has length N−M and its `failed` list
has length M; each file's contribution to the two lists is a function of
that file alone, so no archive affects another's outcome. -/
theorem uploadBatch_spec (files : List UploadFile) :
    uploadBatch files =
      ((files.filter (fun f => uploadOutcomeOk f)).map (fun f => splitextStem f.filename),
        (files.filter (fun f => ¬ uploadOutcomeOk f)).map (fun f => f.filename)) ∧
    (uploadBatch files).2.length = (files.filter (fun f => ¬ uploadOutcomeOk f)).length ∧
    (uploadBatch files).1.length =
      files.length - (files.filter (fun f => ¬ uploadOutcomeOk f)).length := by
  have hb : uploadBatch files =
      ((files.filter (fun f => uploadOutcomeOk f)).map (fun f => splitextStem f.filename),
        (files.filter (fun f => ¬ uploadOutcomeOk f)).map (fun f => f.filename)) := by
    rw [uploadBatch, uploadLoop_eq files [] []]
    simp
  refine ⟨hb, ?_, ?_⟩
  · rw [hb]; simp
  · rw [hb]
    simp only [List.length_map]
    have hl := length_filter_not_add (p := fun f => uploadOutcomeOk f) files
    omega

/-! ## Claim C9: bounds aggregation -/

theorem foldl_rectUnion (rest : List (ℚ × ℚ × ℚ × ℚ)) :
    ∀ b, rest.foldl rectUnion b =
      ((rest.map (fun t => t.1)).foldl min b.1,
        (rest.map (fun t => t.2.1)).foldl min b.2.1,
        (rest.map (fun t => t.2.2.1)).foldl max b.2.2.1,
        (rest.map (fun t => t.2.2.2)).foldl max b.2.2.2) := by
  induction rest with
  | nil => intro b; rfl
  | cons r rs ih =>
    intro b
    rw [List.foldl_cons, ih (rectUnion b r)]
    simp only [List.map_cons, List.foldl_cons]
    rfl

/-- C9: the `/layers` bounds value is the union bounding rectangle over the
bounds of exactly the layers that yield bounds, formatted as
`[[min_lat, min_lon], [max_lat, max_lon]]`; a layer whose geometry collection
cannot produce bounds is skipped, and when no layer yields bounds the result
is null. -/
theorem get_layers_bounds_spec (lyrs : List Layer) :
    computeBounds lyrs = boundsAggregator_spec lyrs := by
  cases lyrs with
  | nil => rfl
  | cons l rest =>
    rw [computeBounds, boundsAggregator_spec]
    cases hfm : (l :: rest).filterMap (fun x => x.boundsResult) with
    | nil => rfl
    | cons b bs =>
      rw [unionBoundsRect, foldl_rectUnion bs b]

/-! ## Claim C10: the layers mapping of the List response -/

theorem exists_lookup_of_mem_keys {n : String} {reg : List (String × Layer)}
    (h : n ∈ reg.map Prod.fst) : ∃ l, List.lookup n reg = some l := by
  induction reg with
  | nil => simp at h
  | cons p rest ih =>
    cases hq : (n == p.1) with
    | true => exact ⟨p.2, by simp only [List.lookup]; rw [hq]⟩
    | false =>
      rw [List.map_cons, List.mem_cons] at h
      have hn : n ≠ p.1 := by simpa using hq
      obtain ⟨l, hl⟩ := ih (h.resolve_left hn)
      exact ⟨l, by simp only [List.lookup]; rw [hq]; exact hl⟩

theorem buildOrderedLayers_of_mem (reg : List (String × Layer)) :
    ∀ ord : List String, (∀ n ∈ ord, n ∈ reg.map Prod.fst) →
      ∃ resp, buildOrderedLayers reg ord = some resp ∧
        resp.map Prod.fst = ord ∧
        ∀ p ∈ resp, List.lookup p.1 reg = some p.2 := by
  intro ord
  induction ord with
  | nil => exact fun _ => ⟨[], rfl, rfl, by simp⟩
  | cons n rest ih =>
    intro h
    obtain ⟨resp, hresp, hmap, hlk⟩ := ih (fun m hm => h m (List.mem_cons_of_mem _ hm))
    obtain ⟨l, hl⟩ := exists_lookup_of_mem_keys (h n (List.mem_cons_self _ _))
    refine ⟨(n, l) :: resp, ?_, ?_, ?_⟩
    · rw [buildOrderedLayers, hl, hresp]
    · rw [List.map_cons, hmap]
    · rintro p hp
      rcases List.mem_cons.mp hp with rfl | hp
      · exact hl
      · exact hlk p hp

/-- C10: for every registry and saved order, `get_layers` builds the layers
mapping successfully, its keys enumerate in exactly the sequence of the
computed order list (so the key set equals the order's name set), and each
name maps to its registered layer record. -/
theorem get_layers_response_spec (reg : List (String × Layer)) (saved : List String) :
    ∃ resp, buildOrderedLayers reg (reconcileOrder saved (reg.map Prod.fst)) = some resp ∧
      resp.map Prod.fst = reconcileOrder saved (reg.map Prod.fst) ∧
      ∀ p ∈ resp, List.lookup p.1 reg = some p.2 :=
  buildOrderedLayers_of_mem reg _ (fun _ hn => mem_reconcileOrder.mp hn)

end Pmahal
